import Mathlib

/-!
Verification development for the SentimentDelta repository.

The repository is a sentiment/price ingestion pipeline with a TypeScript
dashboard frontend.  The frontend sources (chart utilities, the stock-prices
page, the API client layer) are embedded here directly from the TypeScript
code.  The backend pipeline (scheduler, jobs, storage manager, aggregates
job) is not present in the source tree; those components are modelled from
the specification, each such definition carrying a doc comment that starts
with the words Modelled from the spec.

Numbers are embedded as rationals, JavaScript array sorting as a sorted
permutation, records/objects as structures or association lists, and
fallible external collaborators (HTTP fetches, date parsing) as explicit
function parameters or result sums.
-/

set_option maxHeartbeats 1000000

/- ============================================================ -/
/- Chart utilities: src frontend lib chart-utils,
   function calculateYAxisDomain (claim C9).                    -/
/- ============================================================ -/

/-- A JSON-like cell value in a chart data row.  A row in the TypeScript code
has type Record of string to any; a cell either holds a number (embedded as a
rational) or some non-numeric value, which the scan ignores. -/
inductive CellValue where
  | num (q : ℚ)
  | other
deriving DecidableEq, Repr

/-- One chart data row: an association of string keys to cell values,
mirroring a TypeScript record object. -/
abbrev ChartRow := List (String × CellValue)

/-- Series descriptor from chart-utils: dataKey, color and an optional
label, exactly the fields of the SeriesConfig interface. -/
structure SeriesConfig where
  dataKey : String
  color : String
  label : Option String
deriving DecidableEq, Repr

/-- Running minimum and maximum during the scan of calculateYAxisDomain.
The TypeScript code initialises min to Infinity and max to -Infinity; the
sentinels are embedded as the value none. -/
structure MinMaxAcc where
  min? : Option ℚ
  max? : Option ℚ
deriving DecidableEq, Repr

/-- One step of the nested forEach scan of calculateYAxisDomain: when the
cell under the series key holds a number, both the running minimum and the
running maximum are updated, otherwise the accumulator is unchanged. -/
def updateAcc (acc : MinMaxAcc) (v : Option CellValue) : MinMaxAcc :=
  match v with
  | some (CellValue.num q) =>
      { min? := some (match acc.min? with | none => q | some m => min m q)
        max? := some (match acc.max? with | none => q | some m => max m q) }
  | _ => acc

/-- The nested data.forEach / series.forEach scan of calculateYAxisDomain,
reading each row at each series dataKey. -/
def scanRows (data : List ChartRow) (series : List SeriesConfig) : MinMaxAcc :=
  data.foldl
    (fun acc item =>
      series.foldl (fun a s => updateAcc a (item.lookup s.dataKey)) acc)
    { min? := none, max? := none }

/-- Embedding of calculateYAxisDomain from chart-utils.  Returns the pair
(0, 100) when the data or series list is empty or when no numeric value was
found (the Infinity sentinel survived the scan); otherwise the pair of the
floor of min minus padding and the ceiling of max plus padding, where
padding is range times yAxisPadding.  The TypeScript default for
yAxisPadding is one tenth; here the padding argument is always explicit. -/
def calculateYAxisDomain (data : List ChartRow) (series : List SeriesConfig)
    (yAxisPadding : ℚ) : ℚ × ℚ :=
  if data.isEmpty || series.isEmpty then (0, 100)
  else
    let acc := scanRows data series
    match acc.min?, acc.max? with
    | some mn, some mx =>
        let range := mx - mn
        let padding := range * yAxisPadding
        ((⌊mn - padding⌋ : ℤ), ((⌈mx + padding⌉ : ℤ) : ℚ))
    | _, _ => (0, 100)

/-- Specification-side view for claim C9: the list of all numeric values
found in the data rows under the listed series keys, in scan order. -/
def numericCells (data : List ChartRow) (series : List SeriesConfig) : List ℚ :=
  data.flatMap (fun item =>
    series.filterMap (fun s =>
      match item.lookup s.dataKey with
      | some (CellValue.num q) => some q
      | _ => none))

/-- Minimum of a list of rationals in the accumulator style of the scan,
yielding none exactly on the empty list. -/
def listMin (l : List ℚ) : Option ℚ :=
  l.foldl (fun o q => some (match o with | none => q | some m => min m q)) none

/-- Maximum of a list of rationals in the accumulator style of the scan,
yielding none exactly on the empty list. -/
def listMax (l : List ℚ) : Option ℚ :=
  l.foldl (fun o q => some (match o with | none => q | some m => max m q)) none

/- ============================================================ -/
/- Stock prices page: src frontend dashboard stock-prices page,
   function StockPricesPage.fetchData (claim C10).              -/
/- ============================================================ -/

/-- One processed stock price record as the page receives it from the
application context: the StockPrice API fields plus the date and time
strings split from the Datetime field. -/
structure StockPrice where
  Ticker : String
  Open : ℚ
  High : ℚ
  Low : ℚ
  Close : ℚ
  Volume : ℚ
  date : String
  time : String
deriving DecidableEq, Repr

/-- Sort key used by fetchData: the millisecond timestamp of the ISO string
formed from the date and time fields.  The JavaScript Date parser is an
external collaborator and is passed in as the function getTime. -/
def sortKey (getTime : String → ℤ) (r : StockPrice) : ℤ :=
  getTime (r.date ++ "T" ++ r.time ++ "Z")

/-- Comparison relation of the fetchData sort comparator. -/
def priceLE (getTime : String → ℤ) (a b : StockPrice) : Prop :=
  sortKey getTime a ≤ sortKey getTime b

instance (getTime : String → ℤ) : DecidableRel (priceLE getTime) :=
  fun a b => Int.decLe _ _

/-- Component state of StockPricesPage touched by fetchData: the data list,
the two date-picker inputs, and the error message. -/
structure PriceFetchState where
  data : Option (List StockPrice)
  startDate : String
  endDate : String
  error : Option String
deriving DecidableEq, Repr

/-- Embedding of StockPricesPage.fetchData, as a pure state transformer on
the component state given the (already processed) response.  A missing
response models the catch branch; a response with a nonempty data list is
sorted by the date plus time timestamp, stored, and the date inputs are set
from the first and last records of the sorted list; an empty data list
stores the empty list. -/
def fetchData (getTime : String → ℤ) (st : PriceFetchState)
    (response : Option (List StockPrice)) : PriceFetchState :=
  match response with
  | none => { st with error := some "Failed to fetch data" }
  | some rs =>
      if rs.length > 0 then
        let sorted := List.insertionSort (priceLE getTime) rs
        { st with
          data := some sorted
          startDate := ((sorted.head?).map StockPrice.date).getD st.startDate
          endDate := ((sorted.getLast?).map StockPrice.date).getD st.endDate }
      else { st with data := some ([] : List StockPrice) }

/- ============================================================ -/
/- API client layer: src frontend api apiService,
   getPriceRange and getNewsByTickerAndPagination (claim C8).   -/
/- ============================================================ -/

/-- An outgoing HTTP GET request as axios sees it: the url string built by
template interpolation, and the params object as key/value pairs. -/
structure HttpRequest where
  url : String
  params : List (String × String)
deriving DecidableEq, Repr

/-- Embedding of getPriceRange from apiService: a GET of the interpolated
path stock_prices slash ticker with start and end as query params. -/
def getPriceRange (ticker start stop : String) : HttpRequest :=
  { url := "/stock_prices/" ++ ticker
    params := [("start", start), ("end", stop)] }

/-- Embedding of getNewsByTickerAndPagination from apiService: a GET of the
interpolated path news slash ticker slash the ticker slash paginated, with
page, limit and search as query params.  The numeric page and limit are
serialized to decimal strings as axios does when building the query. -/
def getNewsByTickerAndPagination (ticker : String) (page limit : Nat)
    (search : String) : HttpRequest :=
  { url := "/news/ticker/" ++ ticker ++ "/paginated"
    params := [("page", toString page), ("limit", toString limit),
               ("search", search)] }

/-- Splits a character list on the slash character, the way a server-side
router decomposes a request path into segments. -/
def splitSlash : List Char → List (List Char)
  | [] => [[]]
  | c :: cs =>
      if c = '/' then [] :: splitSlash cs
      else
        match splitSlash cs with
        | [] => [[c]]
        | s :: ss => (c :: s) :: ss

/-- Path segments of a request url, as a router would see them. -/
def pathSegments (r : HttpRequest) : List (List Char) :=
  splitSlash r.url.data

/-- Router-side view of a price-range request: the ticker recovered from
the path together with the start and end query parameter values. -/
def parsePriceRangeRequest (r : HttpRequest) : Option (String × String × String) :=
  match pathSegments r with
  | [[], seg, t] =>
      if seg = "stock_prices".data then
        match r.params.lookup "start", r.params.lookup "end" with
        | some s, some e => some (String.mk t, s, e)
        | _, _ => none
      else none
  | _ => none

/-- Router-side view of a paginated news request: the ticker recovered from
the path together with the page, limit and search query parameter values. -/
def parseNewsPaginatedRequest (r : HttpRequest) :
    Option (String × String × String × String) :=
  match pathSegments r with
  | [[], seg1, seg2, t, seg3] =>
      if seg1 = "news".data ∧ seg2 = "ticker".data ∧ seg3 = "paginated".data then
        match r.params.lookup "page", r.params.lookup "limit",
              r.params.lookup "search" with
        | some p, some l, some s => some (String.mk t, p, l, s)
        | _, _, _ => none
      else none
  | _ => none

/- ============================================================ -/
/- Backend data model.  The Python backend is not in the source
   tree; everything below is modelled from the specification.   -/
/- ============================================================ -/

/-- Modelled from the spec: the sentiment annotation of a news article, a
continuous score plus a positive, neutral and negative breakdown (spec data
model).  The backend sentiment scorer itself is an external collaborator. -/
structure Sentiment where
  score : ℚ
  positive : ℚ
  neutral : ℚ
  negative : ℚ
deriving DecidableEq, Repr

/-- Modelled from the spec: one stored NewsArticle document.  Body,
sentiment and embedding are nullable until the corresponding enrichment
succeeds. -/
structure NewsArticle where
  ticker : String
  source : String
  title : String
  url : String
  date : String
  body : Option String
  sentiment : Option Sentiment
  embedding : Option (List ℚ)
deriving DecidableEq, Repr

/-- Modelled from the spec: the dedupe key of a NewsArticle, the natural
key (ticker, url). -/
def dedupeKey (a : NewsArticle) : String × String :=
  (a.ticker, a.url)

/-- Modelled from the spec: one stored OHLCV PricePoint bar.  The open
field is named openPrice because open is a keyword.  Natural key is the
pair (ticker, timestamp); the timestamp is the normalized epoch value. -/
structure PricePoint where
  ticker : String
  timestamp : ℕ
  openPrice : ℚ
  high : ℚ
  low : ℚ
  close : ℚ
  volume : ℕ
deriving DecidableEq, Repr

/-- Modelled from the spec: the natural key of a PricePoint. -/
def PricePoint.key (p : PricePoint) : String × ℕ :=
  (p.ticker, p.timestamp)

/- ============================================================ -/
/- StorageManager, modelled from the spec: collections are kept
   as document lists; upsert is compare-and-merge on the natural
   key, full overwrite for PricePoint.                          -/
/- ============================================================ -/

/-- Modelled from the spec: StorageManager.upsert on one collection.  The
first document whose natural key equals the incoming key is replaced by the
merge of the existing document with the incoming one; if no document has
the key, the incoming document is appended. -/
def upsertBy {α κ : Type} [DecidableEq κ] (key : α → κ)
    (merge : α → α → α) (a : α) : List α → List α
  | [] => [a]
  | x :: xs =>
      if key x = key a then merge x a :: xs else x :: upsertBy key merge a xs

/-- Modelled from the spec: StorageManager.get on one collection, the first
document under the given natural key. -/
def findByKey {α κ : Type} [DecidableEq κ] (key : α → κ) (k : κ)
    (l : List α) : Option α :=
  l.find? (fun x => decide (key x = k))

/-- Modelled from the spec: the explicit merge function for NewsArticle
upserts, taking existing and incoming to the merged document.  Merging is
field-level last-write-wins: scalar fields take the incoming value, and
each nullable enrichment field takes the incoming value when it is
populated and otherwise keeps the existing value. -/
def mergeArticle (existing incoming : NewsArticle) : NewsArticle :=
  { ticker := incoming.ticker
    source := incoming.source
    title := incoming.title
    url := incoming.url
    date := incoming.date
    body := incoming.body.orElse (fun _ => existing.body)
    sentiment := incoming.sentiment.orElse (fun _ => existing.sentiment)
    embedding := incoming.embedding.orElse (fun _ => existing.embedding) }

/-- Modelled from the spec: upsert of a price bar, a full overwrite on the
(ticker, timestamp) natural key since bars are fully derived. -/
def upsertPrice (p : PricePoint) (store : List PricePoint) : List PricePoint :=
  upsertBy PricePoint.key (fun _ incoming => incoming) p store

/-- Modelled from the spec: upsert of a news article under its dedupe key
with the field-level merge. -/
def upsertNews (a : NewsArticle) (store : List NewsArticle) : List NewsArticle :=
  upsertBy dedupeKey mergeArticle a store

/-- Modelled from the spec: StockPriceJob's store phase for one ticker,
upserting every fetched bar of the batch in order. -/
def stockPriceJob (bars : List PricePoint) (store : List PricePoint) :
    List PricePoint :=
  bars.foldl (fun s b => upsertPrice b s) store

/-- Modelled from the spec: the store phase of the news pipeline, upserting
every processed article of the batch in order. -/
def newsJob (arts : List NewsArticle) (store : List NewsArticle) :
    List NewsArticle :=
  arts.foldl (fun s a => upsertNews a s) store

/- ============================================================ -/
/- Pipeline-level state, for the uniqueness invariant (C4).     -/
/- ============================================================ -/

/-- Modelled from the spec: one ingestion operation of the pipeline, a
price batch or a processed news batch reaching StorageManager. -/
inductive PipelineOp where
  | priceBatch (bars : List PricePoint)
  | newsBatch (arts : List NewsArticle)

/-- Modelled from the spec: the stored state of the two incrementally
ingested collections. -/
structure PipelineState where
  prices : List PricePoint
  news : List NewsArticle

/-- Modelled from the spec: effect of one ingestion operation on the stored
state. -/
def applyOp (st : PipelineState) : PipelineOp → PipelineState
  | PipelineOp.priceBatch bars => { st with prices := stockPriceJob bars st.prices }
  | PipelineOp.newsBatch arts => { st with news := newsJob arts st.news }

/-- Modelled from the spec: the empty datastore the pipeline starts from. -/
def initialState : PipelineState :=
  { prices := [], news := [] }

/-- Modelled from the spec: the stored state after a sequence of pipeline
operations, starting from the empty datastore. -/
def runPipeline (ops : List PipelineOp) : PipelineState :=
  ops.foldl applyOp initialState

/- ============================================================ -/
/- Watermark advancement (C5).                                  -/
/- ============================================================ -/

/-- Modelled from the spec: advancement of the per-ticker fetch-since
cursor over one run.  The run attempts to store the fetched bars in order;
each element pairs a bar timestamp with the success flag of its store.  The
cursor moves past a timestamp only while every store so far succeeded; the
first failed store freezes the cursor at its current value. -/
def advanceWatermark (w : ℕ) : List (ℕ × Bool) → ℕ
  | [] => w
  | (t, ok) :: rest => if ok then advanceWatermark (max w t) rest else w

/-- Modelled from the spec: per-ticker cursor plus stored bars. -/
structure TickerCursor where
  watermark : ℕ
  stored : List PricePoint
deriving DecidableEq, Repr

/-- Modelled from the spec: one StockPriceJob run over a fetched batch with
per-bar store outcomes; successfully stored bars are upserted and the
watermark advances only across the successfully stored prefix. -/
def priceRunStep (st : TickerCursor) (batch : List (PricePoint × Bool)) :
    TickerCursor :=
  { watermark :=
      advanceWatermark st.watermark (batch.map (fun pb => (pb.1.timestamp, pb.2)))
    stored := (batch.filter (fun pb => pb.2)).foldl
      (fun s pb => upsertPrice pb.1 s) st.stored }

/-- Modelled from the spec: the watermark after a sequence of runs. -/
def watermarkAfterRuns (w : ℕ) (runs : List (List (ℕ × Bool))) : ℕ :=
  runs.foldl advanceWatermark w

/- ============================================================ -/
/- Scheduler (C6).                                              -/
/- ============================================================ -/

/-- Modelled from the spec: the registered job types; different types touch
disjoint collections and may overlap, the same type may not. -/
inductive JobType where
  | stockPrice
  | yahooNews
  | finvizNews
  | aggregates
deriving DecidableEq, Repr

/-- Modelled from the spec: the per-job state machine phases, following
Idle to Running to Succeeded or Failed and back to Idle. -/
inductive JobPhase where
  | idle
  | running
  | succeeded
  | failed
deriving DecidableEq, Repr

/-- Modelled from the spec: one active run of a job, identified by its job
type and a run identifier. -/
structure RunInfo where
  job : JobType
  runId : ℕ
deriving DecidableEq, Repr

/-- Modelled from the spec: the scheduler state, holding each job type's
phase, the set of currently executing runs and a fresh-run counter. -/
structure SchedulerState where
  phase : JobType → JobPhase
  active : List RunInfo
  nextId : ℕ

/-- Modelled from the spec: the scheduler starts with every job idle and no
active run. -/
def initScheduler : SchedulerState :=
  { phase := fun _ => JobPhase.idle, active := [], nextId := 0 }

/-- Modelled from the spec: pointwise phase update of one job type. -/
def setPhase (s : SchedulerState) (j : JobType) (p : JobPhase) :
    JobType → JobPhase :=
  fun k => if k = j then p else s.phase k

/-- Modelled from the spec: the scheduler transition relation.  A run of a
job type starts only from its idle phase (a tick that fires while the
previous run of the same type is still active starts nothing); a running
job finishes as succeeded or failed and leaves the active set; a finished
job returns to idle before its next run. -/
inductive SchedStep : SchedulerState → SchedulerState → Prop where
  | start (s : SchedulerState) (j : JobType) (h : s.phase j = JobPhase.idle) :
      SchedStep s
        { phase := setPhase s j JobPhase.running
          active := { job := j, runId := s.nextId } :: s.active
          nextId := s.nextId + 1 }
  | finish (s : SchedulerState) (j : JobType) (ok : Bool)
      (h : s.phase j = JobPhase.running) :
      SchedStep s
        { phase := setPhase s j (if ok then JobPhase.succeeded else JobPhase.failed)
          active := s.active.filter (fun r => decide (r.job ≠ j))
          nextId := s.nextId }
  | reset (s : SchedulerState) (j : JobType)
      (h : s.phase j = JobPhase.succeeded ∨ s.phase j = JobPhase.failed) :
      SchedStep s
        { phase := setPhase s j JobPhase.idle
          active := s.active
          nextId := s.nextId }

/-- Modelled from the spec: the states the scheduler can reach from its
initial state through the transition relation. -/
inductive Reachable : SchedulerState → Prop where
  | init : Reachable initScheduler
  | step {s t : SchedulerState} (hs : Reachable s) (hstep : SchedStep s t) :
      Reachable t

/- ============================================================ -/
/- Per-ticker fan-out with error capture (C7).                  -/
/- ============================================================ -/

/-- Modelled from the spec: the outcome of fetching one unit of work for
one ticker, either the fetched records or a captured error. -/
inductive FetchResult (α : Type) where
  | ok (records : List α)
  | err (msg : String)

/-- Modelled from the spec: the JobRun summary counts, aggregating per-unit
outcomes. -/
structure JobRunSummary where
  succeeded : ℕ
  failed : ℕ
  stored : ℕ
deriving DecidableEq, Repr

/-- Modelled from the spec: fan-out of one job over its tickers.  Each
ticker is one unit of work: its fetch either yields records, which are all
ingested into the store and counted, or an error, which is recorded in the
summary for that unit alone; processing always continues with the next
ticker. -/
def runPerTicker {α : Type} (fetch : String → FetchResult α)
    (ingest : α → List α → List α) (tickers : List String)
    (store : List α) (summary : JobRunSummary) : List α × JobRunSummary :=
  tickers.foldl
    (fun acc t =>
      match fetch t with
      | FetchResult.ok rs =>
          (rs.foldl (fun s r => ingest r s) acc.1,
           { acc.2 with
             succeeded := acc.2.succeeded + 1
             stored := acc.2.stored + rs.length })
      | FetchResult.err _ =>
          (acc.1, { acc.2 with failed := acc.2.failed + 1 }))
    (store, summary)

/-- Modelled from the spec: one scheduler tick running StockPriceJob and
the news pipeline over the same ticker list, with per-ticker fetch outcomes
given by the two fetch collaborators.  Returns the new stored state and the
two JobRun summaries. -/
def schedulerTick (priceFetch : String → FetchResult PricePoint)
    (newsFetch : String → FetchResult NewsArticle) (tickers : List String)
    (st : PipelineState) : PipelineState × JobRunSummary × JobRunSummary :=
  let pr := runPerTicker priceFetch upsertPrice tickers st.prices
    { succeeded := 0, failed := 0, stored := 0 }
  let nw := runPerTicker newsFetch upsertNews tickers st.news
    { succeeded := 0, failed := 0, stored := 0 }
  ({ prices := pr.1, news := nw.1 }, pr.2, nw.2)

/- ============================================================ -/
/- AggregatesJob (C1).                                          -/
/- ============================================================ -/

/-- Modelled from the spec: the positive sentiment threshold, the rational
one tenth (0.1), written in normalized form so that comparisons against it
reduce in the kernel. -/
def posThreshold : ℚ := ⟨1, 10, by decide, by decide⟩

/-- Modelled from the spec: the negative sentiment threshold, the rational
minus one tenth (-0.1), written in normalized form. -/
def negThreshold : ℚ := ⟨-1, 10, by decide, by decide⟩

/-- Modelled from the spec: one ticker-day AggregateRecord.  The sent_var
field holds the squared sample standard deviation, which stays rational;
the sample standard deviation itself is the derived real sentStd below. -/
structure AggregateRecord where
  ticker : String
  date : String
  attention : ℕ
  bull_bear_ratio : ℚ
  sent_mean : ℚ
  sent_var : ℚ
deriving DecidableEq, Repr

/-- Modelled from the spec: the NewsArticle records stored for one
ticker-day, read back through StorageManager. -/
def articlesFor (store : List NewsArticle) (t d : String) : List NewsArticle :=
  store.filter (fun a => decide (a.ticker = t ∧ a.date = d))

/-- Modelled from the spec: the sentiment scores of the ticker-day's
articles, in store order, taken from the annotated articles. -/
def dayScores (store : List NewsArticle) (t d : String) : List ℚ :=
  ((articlesFor store t d).filterMap NewsArticle.sentiment).map Sentiment.score

/-- Modelled from the spec: the single-pass accumulation of the sum and the
sum of squares of the day's scores, as a streaming implementation keeps
them. -/
def scoreStats (scores : List ℚ) : ℚ × ℚ :=
  scores.foldl (fun acc x => (acc.1 + x, acc.2 + x * x)) (0, 0)

/-- Modelled from the spec: AggregatesJob for one ticker and one calendar
date.  Attention is the article count; bull_bear_ratio divides the count of
scores above the positive threshold by the count below the negative
threshold with the denominator floored at one; sent_mean is the mean of the
scores and sent_var the sample variance, computed from the single-pass sums. -/
def aggregatesJob (store : List NewsArticle) (t d : String) : AggregateRecord :=
  let arts := articlesFor store t d
  let scores := dayScores store t d
  let n : ℕ := scores.length
  let sums := scoreStats scores
  let posCount := scores.countP (fun x => decide (posThreshold < x))
  let negCount := scores.countP (fun x => decide (x < negThreshold))
  let mean := sums.1 / (n : ℚ)
  { ticker := t
    date := d
    attention := arts.length
    bull_bear_ratio := (posCount : ℚ) / ((max negCount 1 : ℕ) : ℚ)
    sent_mean := mean
    sent_var := (sums.2 - (n : ℚ) * mean * mean) / ((n : ℚ) - 1) }

/-- Modelled from the spec: the sample standard deviation of an aggregate,
the square root of the sample variance. -/
noncomputable def sentStd (r : AggregateRecord) : ℝ :=
  Real.sqrt (r.sent_var : ℝ)

/-- Specification-side mean of a list of scores, stated as the sum over the
length. -/
def sampleMean (l : List ℚ) : ℚ :=
  l.sum / (l.length : ℚ)

/-- Specification-side sample variance of a list of scores: the sum of the
squared deviations from the mean over one less than the length. -/
def sampleVar (l : List ℚ) : ℚ :=
  ((l.map (fun x => (x - sampleMean l) ^ 2)).sum) / ((l.length : ℚ) - 1)

/-- Helper building one fully annotated article for concrete instances. -/
def mkArticle (t d title : String) (sc : ℚ) : NewsArticle :=
  { ticker := t
    source := "Yahoo"
    title := title
    url := "https://example.com/" ++ title
    date := d
    body := some "body text"
    sentiment := some { score := sc, positive := 0, neutral := 0, negative := 0 }
    embedding := none }

/-- Concrete store for the aggregate determinism instance: ten AAPL
articles on 2024-01-05 with five positive scores (above one tenth), two
negative scores (below minus one tenth) and three neutral scores. -/
def aaplStore : List NewsArticle :=
  [ mkArticle "AAPL" "2024-01-05" "a1" 1
  , mkArticle "AAPL" "2024-01-05" "a2" 2
  , mkArticle "AAPL" "2024-01-05" "a3" 3
  , mkArticle "AAPL" "2024-01-05" "a4" 4
  , mkArticle "AAPL" "2024-01-05" "a5" 5
  , mkArticle "AAPL" "2024-01-05" "a6" (-1)
  , mkArticle "AAPL" "2024-01-05" "a7" (-2)
  , mkArticle "AAPL" "2024-01-05" "a8" 0
  , mkArticle "AAPL" "2024-01-05" "a9" 0
  , mkArticle "AAPL" "2024-01-05" "a10" 0 ]

/-- Last bar of a batch carrying a given natural key, the document that
last-write-wins upserting leaves under that key. -/
def lastWrite (k : String × ℕ) : List PricePoint → Option PricePoint
  | [] => none
  | b :: bs =>
      match lastWrite k bs with
      | some c => some c
      | none => if b.key = k then some b else none

/-- Whether a fetch outcome carries records. -/
def FetchResult.isOk {α : Type} : FetchResult α → Bool
  | FetchResult.ok _ => true
  | FetchResult.err _ => false

/- ============================================================ -/
/- Theorems.                                                    -/
/- ============================================================ -/

theorem advanceWatermark_mono (l : List (ℕ × Bool)) :
    ∀ w : ℕ, w ≤ advanceWatermark w l := by
  induction l with
  | nil => intro w; exact le_rfl
  | cons p rest ih =>
      intro w
      obtain ⟨t, ok⟩ := p
      by_cases hok : ok = true
      · subst hok
        simpa [advanceWatermark] using
          le_trans (le_max_left w t) (ih (max w t))
      · simp [advanceWatermark, hok]

theorem watermarkAfterRuns_mono (runs : List (List (ℕ × Bool))) :
    ∀ w : ℕ, w ≤ watermarkAfterRuns w runs := by
  induction runs with
  | nil => intro w; exact le_rfl
  | cons run rest ih =>
      intro w
      exact le_trans (advanceWatermark_mono run w)
        (by simpa [watermarkAfterRuns] using ih (advanceWatermark w run))

theorem advanceWatermark_lt_failed (l : List (ℕ × Bool)) :
    ∀ w : ℕ, l.Pairwise (fun a b => a.1 < b.1) →
      (∀ p ∈ l, w < p.1) →
      ∀ p ∈ l, p.2 = false → advanceWatermark w l < p.1 := by
  induction l with
  | nil => intro w _ _ p hp; cases hp
  | cons q rest ih =>
      intro w hsorted hafter p hp hfail
      obtain ⟨t, ok⟩ := q
      rw [List.pairwise_cons] at hsorted
      by_cases hok : ok = true
      · subst hok
        rcases List.mem_cons.mp hp with hp | hp
        · subst hp; simp at hfail
        · have hrest : ∀ r ∈ rest, max w t < r.1 := by
            intro r hr
            exact max_lt (hafter r (List.mem_cons_of_mem _ hr)) (hsorted.1 r hr)
          simpa [advanceWatermark] using
            ih (max w t) hsorted.2 hrest p hp hfail
      · have hok2 : ok = false := by
          cases ok
          · rfl
          · exact absurd rfl hok
        subst hok2
        simpa [advanceWatermark] using hafter p hp

/-- C5: the per-ticker fetch-since watermark is monotone.  A StockPriceJob
run over a batch of increasing timestamps all beyond the current cursor
never moves the cursor backwards, the cursor is monotone across every
sequence of runs, the cursor stays strictly below the timestamp of every
bar whose store failed, and every batch timestamp the cursor did advance
past belongs to a successfully stored bar. -/
theorem C5_watermark_monotone (st : TickerCursor) (batch : List (PricePoint × Bool))
    (hsorted : batch.Pairwise (fun a b => a.1.timestamp < b.1.timestamp))
    (hafter : ∀ pb ∈ batch, st.watermark < pb.1.timestamp) :
    st.watermark ≤ (priceRunStep st batch).watermark ∧
    (∀ (w : ℕ) (runs : List (List (ℕ × Bool))), w ≤ watermarkAfterRuns w runs) ∧
    (∀ pb ∈ batch, pb.2 = false →
      (priceRunStep st batch).watermark < pb.1.timestamp) ∧
    (∀ pb ∈ batch, pb.1.timestamp ≤ (priceRunStep st batch).watermark →
      pb.2 = true) := by
  have hmap : (batch.map (fun pb => (pb.1.timestamp, pb.2))).Pairwise
      (fun a b => a.1 < b.1) := by
    refine List.Pairwise.map _ ?_ hsorted
    intro a b hab
    exact hab
  have hmapafter : ∀ p ∈ batch.map (fun pb => (pb.1.timestamp, pb.2)),
      st.watermark < p.1 := by
    intro p hp
    rcases List.mem_map.mp hp with ⟨pb, hpb, rfl⟩
    exact hafter pb hpb
  refine ⟨advanceWatermark_mono _ _, fun w runs => watermarkAfterRuns_mono runs w,
    ?_, ?_⟩
  · intro pb hpb hfail
    have hmem : (pb.1.timestamp, pb.2) ∈ batch.map (fun pb => (pb.1.timestamp, pb.2)) :=
      List.mem_map.mpr ⟨pb, hpb, rfl⟩
    simpa [priceRunStep] using
      advanceWatermark_lt_failed _ st.watermark hmap hmapafter _ hmem hfail
  · intro pb hpb hle
    by_cases hok : pb.2 = true
    · exact hok
    · have hok2 : pb.2 = false := by
        cases h2 : pb.2
        · rfl
        · exact absurd h2 hok
      have hmem : (pb.1.timestamp, pb.2) ∈ batch.map (fun pb => (pb.1.timestamp, pb.2)) :=
        List.mem_map.mpr ⟨pb, hpb, rfl⟩
      have hlt := advanceWatermark_lt_failed _ st.watermark hmap hmapafter _ hmem hok2
      have : (priceRunStep st batch).watermark < pb.1.timestamp := by
        simpa [priceRunStep] using hlt
      exact absurd hle (not_le.mpr this)

/-- Concrete bar for the watermark witness. -/
def barAt (ts : ℕ) : PricePoint :=
  { ticker := "AAPL", timestamp := ts, openPrice := 1, high := 2, low := 1,
    close := 2, volume := 100 }

theorem C5_watermark_monotone_witness :
    ([((barAt 5 : PricePoint), true), (barAt 7, false), (barAt 9, true)].Pairwise
        (fun a b => a.1.timestamp < b.1.timestamp) ∧
      (∀ pb ∈ [((barAt 5 : PricePoint), true), (barAt 7, false), (barAt 9, true)],
        (⟨1, []⟩ : TickerCursor).watermark < pb.1.timestamp)) ∧
    ((⟨1, []⟩ : TickerCursor).watermark ≤
        (priceRunStep ⟨1, []⟩
          [(barAt 5, true), (barAt 7, false), (barAt 9, true)]).watermark ∧
      (∀ (w : ℕ) (runs : List (List (ℕ × Bool))), w ≤ watermarkAfterRuns w runs) ∧
      (∀ pb ∈ [((barAt 5 : PricePoint), true), (barAt 7, false), (barAt 9, true)],
        pb.2 = false →
        (priceRunStep ⟨1, []⟩
          [(barAt 5, true), (barAt 7, false), (barAt 9, true)]).watermark <
          pb.1.timestamp) ∧
      (∀ pb ∈ [((barAt 5 : PricePoint), true), (barAt 7, false), (barAt 9, true)],
        pb.1.timestamp ≤
          (priceRunStep ⟨1, []⟩
            [(barAt 5, true), (barAt 7, false), (barAt 9, true)]).watermark →
        pb.2 = true)) :=
  ⟨⟨by decide, by decide⟩,
    C5_watermark_monotone ⟨1, []⟩
      [(barAt 5, true), (barAt 7, false), (barAt 9, true)]
      (by decide) (by decide)⟩

/-- C3: the NewsArticle merge function never replaces a populated field
with an empty value.  For each nullable enrichment field (body, sentiment,
embedding): an existing populated value survives an incoming absent value,
an incoming populated value wins (field-level last-write-wins), and a
previously absent value is filled from the incoming record. -/
theorem C3_merge_never_regresses (e i : NewsArticle) :
    ((∀ b, e.body = some b → i.body = none → (mergeArticle e i).body = some b) ∧
      (∀ b, i.body = some b → (mergeArticle e i).body = some b) ∧
      (e.body = none → (mergeArticle e i).body = i.body)) ∧
    ((∀ s, e.sentiment = some s → i.sentiment = none →
        (mergeArticle e i).sentiment = some s) ∧
      (∀ s, i.sentiment = some s → (mergeArticle e i).sentiment = some s) ∧
      (e.sentiment = none → (mergeArticle e i).sentiment = i.sentiment)) ∧
    ((∀ v, e.embedding = some v → i.embedding = none →
        (mergeArticle e i).embedding = some v) ∧
      (∀ v, i.embedding = some v → (mergeArticle e i).embedding = some v) ∧
      (e.embedding = none → (mergeArticle e i).embedding = i.embedding)) := by
  refine ⟨⟨?_, ?_, ?_⟩, ⟨?_, ?_, ?_⟩, ⟨?_, ?_, ?_⟩⟩ <;>
    · intros
      cases hb : i.body <;> cases hs : i.sentiment <;> cases hv : i.embedding <;>
        simp_all [mergeArticle, Option.orElse]

/-- Stored article for the merge witness: a populated body, no sentiment. -/
def storedArticle : NewsArticle :=
  { ticker := "AAPL", source := "Yahoo", title := "t", url := "u",
    date := "2024-01-05", body := some "full text", sentiment := none,
    embedding := none }

/-- Incoming article for the merge witness: a failed body re-fetch that
supplies sentiment. -/
def incomingArticle : NewsArticle :=
  { ticker := "AAPL", source := "Yahoo", title := "t", url := "u",
    date := "2024-01-05", body := none,
    sentiment := some { score := 1, positive := 1, neutral := 0, negative := 0 },
    embedding := none }

theorem C3_merge_never_regresses_witness :
    (storedArticle.body = some "full text" ∧ incomingArticle.body = none ∧
      storedArticle.sentiment = none) ∧
    (mergeArticle storedArticle incomingArticle).body = some "full text" ∧
    (mergeArticle storedArticle incomingArticle).sentiment =
      incomingArticle.sentiment :=
  ⟨⟨rfl, rfl, rfl⟩,
    (C3_merge_never_regresses storedArticle incomingArticle).1.1 "full text" rfl rfl,
    (C3_merge_never_regresses storedArticle incomingArticle).2.1.2.2 rfl⟩

theorem splitSlash_no_slash (l : List Char) (h : '/' ∉ l) :
    splitSlash l = [l] := by
  induction l with
  | nil => rfl
  | cons c cs ih =>
      have hc : ¬ c = '/' := fun hc => h (hc ▸ List.mem_cons_self c cs)
      have hcs : '/' ∉ cs := fun hm => h (List.mem_cons_of_mem c hm)
      simp [splitSlash, hc, ih hcs]

theorem splitSlash_append (l r : List Char) (h : '/' ∉ l) :
    splitSlash (l ++ '/' :: r) = l :: splitSlash r := by
  induction l with
  | nil => simp [splitSlash]
  | cons c cs ih =>
      have hc : ¬ c = '/' := fun hc => h (hc ▸ List.mem_cons_self c cs)
      have hcs : '/' ∉ cs := fun hm => h (List.mem_cons_of_mem c hm)
      simp [splitSlash, hc, ih hcs]

theorem mk_data_eq (s : String) : String.mk s.data = s := by
  cases s
  rfl

/-- C8: the consumer-facing read clients send exactly their arguments.  A
price-range request built by getPriceRange parses back, on the router side,
to exactly the given ticker as the path segment and the given start and end
values as the query parameters; a paginated news request built by
getNewsByTickerAndPagination parses back to exactly the given ticker path
segment and the given page, limit and search query parameters. -/
theorem C8_read_clients_send_exact (t s e sq : String) (page limit : ℕ)
    (ht : '/' ∉ t.data) :
    parsePriceRangeRequest (getPriceRange t s e) = some (t, s, e) ∧
    parseNewsPaginatedRequest (getNewsByTickerAndPagination t page limit sq) =
      some (t, toString page, toString limit, sq) := by
  constructor
  · have hdata : ("/stock_prices/" ++ t).data =
        '/' :: ("stock_prices".data ++ '/' :: t.data) := by
      have : ("/stock_prices/" ++ t).data = "/stock_prices/".data ++ t.data :=
        String.data_append _ _
      rw [this]
      rfl
    have hsplit : splitSlash (("/stock_prices/" ++ t).data) =
        [[], "stock_prices".data, t.data] := by
      rw [hdata]
      have h1 : splitSlash ('/' :: ("stock_prices".data ++ '/' :: t.data)) =
          [] :: splitSlash ("stock_prices".data ++ '/' :: t.data) := by
        simp [splitSlash]
      rw [h1, splitSlash_append _ _ (by decide), splitSlash_no_slash _ ht]
    simp only [parsePriceRangeRequest, pathSegments, getPriceRange]
    rw [hsplit]
    simp [List.lookup, mk_data_eq]
  · have hdata : ("/news/ticker/" ++ t ++ "/paginated").data =
        '/' :: ("news".data ++ '/' ::
          ("ticker".data ++ '/' :: (t.data ++ '/' :: "paginated".data))) := by
      have h1 : ("/news/ticker/" ++ t ++ "/paginated").data =
          "/news/ticker/".data ++ t.data ++ "/paginated".data := by
        rw [String.data_append, String.data_append]
      rw [h1]
      show ('/' :: ("news".data ++ '/' :: "ticker".data ++ ['/'])) ++ t.data ++
          '/' :: "paginated".data = _
      simp
    have hsplit : splitSlash (("/news/ticker/" ++ t ++ "/paginated").data) =
        [[], "news".data, "ticker".data, t.data, "paginated".data] := by
      rw [hdata]
      have h1 : ∀ r, splitSlash ('/' :: r) = [] :: splitSlash r := by
        intro r
        simp [splitSlash]
      rw [h1, splitSlash_append _ _ (by decide),
        splitSlash_append _ _ (by decide), splitSlash_append _ _ ht,
        splitSlash_no_slash _ (by decide)]
    simp only [parseNewsPaginatedRequest, pathSegments,
      getNewsByTickerAndPagination]
    rw [hsplit]
    simp [List.lookup, mk_data_eq]

theorem C8_read_clients_send_exact_witness :
    '/' ∉ "AAPL".data ∧
    (parsePriceRangeRequest (getPriceRange "AAPL" "2024-01-01" "2024-02-01") =
        some ("AAPL", "2024-01-01", "2024-02-01") ∧
      parseNewsPaginatedRequest
          (getNewsByTickerAndPagination "AAPL" 2 10 "earnings") =
        some ("AAPL", toString 2, toString 10, "earnings")) :=
  ⟨by decide,
    C8_read_clients_send_exact "AAPL" "2024-01-01" "2024-02-01" "earnings" 2 10
      (by decide)⟩

section UpsertLemmas

variable {α κ : Type} [DecidableEq κ]

theorem map_key_upsertBy (key : α → κ) (merge : α → α → α)
    (hmerge : ∀ x y, key (merge x y) = key y) (a : α) (l : List α) :
    (upsertBy key merge a l).map key =
      if key a ∈ l.map key then l.map key else l.map key ++ [key a] := by
  induction l with
  | nil => simp [upsertBy]
  | cons x xs ih =>
      by_cases hx : key x = key a
      · simp [upsertBy, hx, hmerge]
      · by_cases hm : key a ∈ List.map key xs
        · simp [upsertBy, hx, ih, hm, Ne.symm hx]
        · simp [upsertBy, hx, ih, hm, Ne.symm hx]

theorem nodup_key_upsertBy (key : α → κ) (merge : α → α → α)
    (hmerge : ∀ x y, key (merge x y) = key y) (a : α) (l : List α)
    (h : (l.map key).Nodup) : ((upsertBy key merge a l).map key).Nodup := by
  rw [map_key_upsertBy key merge hmerge]
  by_cases hm : key a ∈ l.map key
  · simpa [hm] using h
  · simp [hm, List.nodup_append, h]

theorem mem_key_upsertBy_self (key : α → κ) (merge : α → α → α)
    (hmerge : ∀ x y, key (merge x y) = key y) (a : α) (l : List α) :
    key a ∈ (upsertBy key merge a l).map key := by
  rw [map_key_upsertBy key merge hmerge]
  by_cases hm : key a ∈ l.map key <;> simp [hm]

theorem mem_key_upsertBy_of_mem (key : α → κ) (merge : α → α → α)
    (hmerge : ∀ x y, key (merge x y) = key y) (a : α) (l : List α) (k : κ)
    (h : k ∈ l.map key) : k ∈ (upsertBy key merge a l).map key := by
  rw [map_key_upsertBy key merge hmerge]
  by_cases hm : key a ∈ l.map key <;> simp [hm, h]

theorem mem_key_upsertFold_of_mem (key : α → κ) (merge : α → α → α)
    (hmerge : ∀ x y, key (merge x y) = key y) :
    ∀ (batch store : List α) (k : κ), k ∈ store.map key →
      k ∈ (batch.foldl (fun s b => upsertBy key merge b s) store).map key := by
  intro batch
  induction batch with
  | nil => intro store k h; simpa using h
  | cons b bs ih =>
      intro store k h
      simpa only [List.foldl_cons] using
        ih (upsertBy key merge b store) k
          (mem_key_upsertBy_of_mem key merge hmerge b store k h)

theorem mem_key_upsertFold_self (key : α → κ) (merge : α → α → α)
    (hmerge : ∀ x y, key (merge x y) = key y) :
    ∀ (batch store : List α) (b : α), b ∈ batch →
      key b ∈ (batch.foldl (fun s b => upsertBy key merge b s) store).map key := by
  intro batch
  induction batch with
  | nil => intro store b h; cases h
  | cons c cs ih =>
      intro store b h
      simp only [List.foldl_cons]
      rcases List.mem_cons.mp h with h | h
      · subst h
        exact mem_key_upsertFold_of_mem key merge hmerge cs _ _
          (mem_key_upsertBy_self key merge hmerge b store)
      · exact ih _ b h

theorem nodup_key_upsertFold (key : α → κ) (merge : α → α → α)
    (hmerge : ∀ x y, key (merge x y) = key y) :
    ∀ (batch store : List α), (store.map key).Nodup →
      ((batch.foldl (fun s b => upsertBy key merge b s) store).map key).Nodup := by
  intro batch
  induction batch with
  | nil => intro store h; simpa using h
  | cons b bs ih =>
      intro store h
      simpa only [List.foldl_cons] using
        ih _ (nodup_key_upsertBy key merge hmerge b store h)

end UpsertLemmas

/-- C4: uniqueness of natural keys is an invariant of the whole pipeline.
After every sequence of ingestion operations starting from the empty
datastore, no two stored PricePoints share a (ticker, timestamp) pair and
no two stored NewsArticles share a dedupe key; moreover every single
ingestion operation preserves the invariant from any state satisfying it. -/
theorem C4_unique_keys :
    (∀ ops : List PipelineOp,
      (((runPipeline ops).prices).map PricePoint.key).Nodup ∧
      (((runPipeline ops).news).map dedupeKey).Nodup) ∧
    (∀ (st : PipelineState) (op : PipelineOp),
      (st.prices.map PricePoint.key).Nodup →
      (st.news.map dedupeKey).Nodup →
      (((applyOp st op).prices).map PricePoint.key).Nodup ∧
      (((applyOp st op).news).map dedupeKey).Nodup) := by
  have hstep : ∀ (st : PipelineState) (op : PipelineOp),
      (st.prices.map PricePoint.key).Nodup →
      (st.news.map dedupeKey).Nodup →
      (((applyOp st op).prices).map PricePoint.key).Nodup ∧
      (((applyOp st op).news).map dedupeKey).Nodup := by
    intro st op h1 h2
    cases op with
    | priceBatch bars =>
        exact ⟨nodup_key_upsertFold PricePoint.key (fun _ incoming => incoming)
          (fun _ _ => rfl) bars st.prices h1, h2⟩
    | newsBatch arts =>
        exact ⟨h1, nodup_key_upsertFold dedupeKey mergeArticle
          (fun _ _ => rfl) arts st.news h2⟩
  refine ⟨?_, hstep⟩
  intro ops
  suffices h : ∀ st : PipelineState, (st.prices.map PricePoint.key).Nodup →
      (st.news.map dedupeKey).Nodup →
      ((ops.foldl applyOp st).prices.map PricePoint.key).Nodup ∧
      ((ops.foldl applyOp st).news.map dedupeKey).Nodup by
    exact h initialState (by simp [initialState]) (by simp [initialState])
  induction ops with
  | nil => intro st h1 h2; exact ⟨h1, h2⟩
  | cons op rest ih =>
      intro st h1 h2
      simp only [List.foldl_cons]
      exact ih _ (hstep st op h1 h2).1 (hstep st op h1 h2).2

theorem C4_unique_keys_witness :
    ((initialState.prices.map PricePoint.key).Nodup ∧
      (initialState.news.map dedupeKey).Nodup) ∧
    (((applyOp initialState
        (PipelineOp.priceBatch [barAt 5, barAt 5])).prices).map
          PricePoint.key).Nodup ∧
    (((applyOp initialState
        (PipelineOp.priceBatch [barAt 5, barAt 5])).news).map dedupeKey).Nodup :=
  ⟨⟨by decide, by decide⟩,
    C4_unique_keys.2 initialState (PipelineOp.priceBatch [barAt 5, barAt 5])
      (by decide) (by decide)⟩

theorem findByKey_eq_none {α κ : Type} [DecidableEq κ] (key : α → κ) (k : κ) :
    ∀ l : List α, findByKey key k l = none ↔ k ∉ l.map key := by
  intro l
  induction l with
  | nil => simp [findByKey]
  | cons x xs ih =>
      by_cases hx : key x = k
      · simp [findByKey, List.find?, hx]
      · simp only [findByKey, List.find?, decide_eq_true_eq] at ih ⊢
        simp [hx, ih, Ne.symm hx]

theorem map_key_upsertPrice_of_mem (p : PricePoint) (store : List PricePoint)
    (h : p.key ∈ store.map PricePoint.key) :
    (upsertPrice p store).map PricePoint.key = store.map PricePoint.key := by
  have h2 := map_key_upsertBy PricePoint.key (fun _ incoming => incoming)
    (fun _ _ => rfl) p store
  rw [if_pos h] at h2
  exact h2

theorem findByKey_upsertPrice (p : PricePoint) (l : List PricePoint)
    (k : String × ℕ) :
    findByKey PricePoint.key k (upsertPrice p l) =
      if k = p.key then some p else findByKey PricePoint.key k l := by
  induction l with
  | nil =>
      by_cases hk : k = p.key
      · have hup : upsertPrice p [] = [p] := rfl
        rw [hup, if_pos hk]
        show List.find? (fun y => decide (PricePoint.key y = k)) [p] = some p
        rw [List.find?_cons_of_pos _ (by simp [hk])]
      · have hup : upsertPrice p [] = [p] := rfl
        rw [hup, if_neg hk]
        show List.find? (fun y => decide (PricePoint.key y = k)) [p] =
          findByKey PricePoint.key k []
        rw [List.find?_cons_of_neg _ (by simp; exact fun h => hk h.symm)]
        rfl
  | cons x xs ih =>
      by_cases hx : x.key = p.key
      · have hup : upsertPrice p (x :: xs) = p :: xs := by
          simp [upsertPrice, upsertBy, hx]
        by_cases hk : k = p.key
        · rw [hup, if_pos hk]
          show List.find? (fun y => decide (PricePoint.key y = k)) (p :: xs) =
            some p
          rw [List.find?_cons_of_pos _ (by simp [hk])]
        · rw [hup, if_neg hk]
          show List.find? (fun y => decide (PricePoint.key y = k)) (p :: xs) =
            List.find? (fun y => decide (PricePoint.key y = k)) (x :: xs)
          rw [List.find?_cons_of_neg _ (by simp; exact fun h => hk h.symm),
            List.find?_cons_of_neg _
              (by simp; exact fun h => hk (h.symm.trans hx))]
      · have hup : upsertPrice p (x :: xs) = x :: upsertPrice p xs := by
          simp [upsertPrice, upsertBy, hx]
        by_cases hxk : x.key = k
        · have hk : ¬ k = p.key := fun h => hx (hxk.trans h)
          rw [hup, if_neg hk]
          show List.find? (fun y => decide (PricePoint.key y = k))
              (x :: upsertPrice p xs) =
            List.find? (fun y => decide (PricePoint.key y = k)) (x :: xs)
          rw [List.find?_cons_of_pos _ (by simp [hxk]),
            List.find?_cons_of_pos _ (by simp [hxk])]
        · rw [hup]
          have hrhs : findByKey PricePoint.key k (x :: xs) =
              findByKey PricePoint.key k xs := by
            show List.find? (fun y => decide (PricePoint.key y = k)) (x :: xs) =
              findByKey PricePoint.key k xs
            rw [List.find?_cons_of_neg _ (by simp [hxk])]
            rfl
          rw [hrhs]
          show List.find? (fun y => decide (PricePoint.key y = k))
              (x :: upsertPrice p xs) =
            if k = p.key then some p else findByKey PricePoint.key k xs
          rw [List.find?_cons_of_neg _ (by simp [hxk])]
          exact ih

theorem findByKey_stockPriceJob :
    ∀ (bars store : List PricePoint) (k : String × ℕ),
      findByKey PricePoint.key k (stockPriceJob bars store) =
        match lastWrite k bars with
        | some c => some c
        | none => findByKey PricePoint.key k store := by
  intro bars
  induction bars with
  | nil => intro store k; simp [stockPriceJob, lastWrite]
  | cons b bs ih =>
      intro store k
      have h1 : stockPriceJob (b :: bs) store =
          stockPriceJob bs (upsertPrice b store) := rfl
      rw [h1, ih]
      cases hlw : lastWrite k bs with
      | some c => simp [lastWrite, hlw]
      | none =>
          rw [findByKey_upsertPrice]
          have hcons : lastWrite k (b :: bs) =
              if b.key = k then some b else none := by
            show (match lastWrite k bs with
                  | some c => some c
                  | none => if b.key = k then some b else none) =
              if b.key = k then some b else none
            rw [hlw]
          rw [hcons]
          by_cases hk : k = b.key
          · rw [if_pos hk, if_pos hk.symm]
          · rw [if_neg hk, if_neg (fun h : b.key = k => hk h.symm)]

theorem all_mem_key_stockPriceJob (bars store : List PricePoint) :
    ∀ b ∈ bars, b.key ∈ (stockPriceJob bars store).map PricePoint.key :=
  fun b hb =>
    mem_key_upsertFold_self PricePoint.key (fun _ incoming => incoming)
      (fun _ _ => rfl) bars store b hb

theorem nodup_key_stockPriceJob (bars store : List PricePoint)
    (h : (store.map PricePoint.key).Nodup) :
    ((stockPriceJob bars store).map PricePoint.key).Nodup :=
  nodup_key_upsertFold PricePoint.key (fun _ incoming => incoming)
    (fun _ _ => rfl) bars store h

theorem map_key_stockPriceJob_of_all_mem :
    ∀ (bars store : List PricePoint),
      (∀ b ∈ bars, b.key ∈ store.map PricePoint.key) →
      (stockPriceJob bars store).map PricePoint.key =
        store.map PricePoint.key := by
  intro bars
  induction bars with
  | nil => intro store _; rfl
  | cons b bs ih =>
      intro store h
      have hb : b.key ∈ store.map PricePoint.key := h b (List.mem_cons_self b bs)
      have h1 : (upsertPrice b store).map PricePoint.key =
          store.map PricePoint.key := map_key_upsertPrice_of_mem b store hb
      have h2 : stockPriceJob (b :: bs) store =
          stockPriceJob bs (upsertPrice b store) := rfl
      rw [h2, ih (upsertPrice b store)
        (fun c hc => by rw [h1]; exact h c (List.mem_cons_of_mem b hc)), h1]

theorem findByKey_ext {α κ : Type} [DecidableEq κ] (key : α → κ) :
    ∀ (l1 l2 : List α), (l1.map key).Nodup → l1.map key = l2.map key →
      (∀ k, findByKey key k l1 = findByKey key k l2) → l1 = l2 := by
  intro l1
  induction l1 with
  | nil =>
      intro l2 _ hmap _
      cases l2 with
      | nil => rfl
      | cons y ys => simp at hmap
  | cons x xs ih =>
      intro l2 hnd hmap hfind
      cases l2 with
      | nil => simp at hmap
      | cons y ys =>
          simp only [List.map_cons, List.cons.injEq] at hmap
          have hxy : x = y := by
            have h1 := hfind (key x)
            have e1 : findByKey key (key x) (x :: xs) = some x := by
              simp [findByKey, List.find?]
            have e2 : findByKey key (key x) (y :: ys) = some y := by
              simp [findByKey, List.find?, hmap.1]
            rw [e1, e2] at h1
            exact Option.some.inj h1
          subst hxy
          have hnd2 : (xs.map key).Nodup := (List.nodup_cons.mp hnd).2
          have hkx : key x ∉ xs.map key := (List.nodup_cons.mp hnd).1
          have hkx2 : key x ∉ ys.map key := hmap.2 ▸ hkx
          have htail : ∀ k, findByKey key k xs = findByKey key k ys := by
            intro k
            by_cases hk : key x = k
            · subst hk
              rw [(findByKey_eq_none key (key x) xs).mpr hkx,
                (findByKey_eq_none key (key x) ys).mpr hkx2]
            · have h2 := hfind k
              simp only [findByKey] at h2 ⊢
              rw [List.find?_cons_of_neg _ (by simp [hk]),
                List.find?_cons_of_neg _ (by simp [hk])] at h2
              exact h2
          rw [ih ys hnd2 hmap.2 htail]

/-- C2: running StockPriceJob twice over the same fetched window for a
ticker is idempotent.  Over any store whose price keys are unique, storing
the same batch a second time leaves the stored list of PricePoint documents
exactly as after the first run, and in particular the stored count does not
change. -/
theorem C2_price_job_idempotent (bars store : List PricePoint)
    (h : (store.map PricePoint.key).Nodup) :
    stockPriceJob bars (stockPriceJob bars store) = stockPriceJob bars store ∧
    (stockPriceJob bars (stockPriceJob bars store)).length =
      (stockPriceJob bars store).length := by
  have hnd1 : ((stockPriceJob bars store).map PricePoint.key).Nodup :=
    nodup_key_stockPriceJob bars store h
  have hnd2 : ((stockPriceJob bars (stockPriceJob bars store)).map
      PricePoint.key).Nodup :=
    nodup_key_stockPriceJob bars _ hnd1
  have hmain : stockPriceJob bars (stockPriceJob bars store) =
      stockPriceJob bars store := by
    apply findByKey_ext PricePoint.key _ _ hnd2
    · exact map_key_stockPriceJob_of_all_mem bars _
        (all_mem_key_stockPriceJob bars store)
    · intro k
      rw [findByKey_stockPriceJob, findByKey_stockPriceJob]
      cases hlw : lastWrite k bars <;> simp
  exact ⟨hmain, by rw [hmain]⟩

theorem C2_price_job_idempotent_witness :
    ((([] : List PricePoint).map PricePoint.key).Nodup) ∧
    (stockPriceJob [barAt 5, barAt 7]
        (stockPriceJob [barAt 5, barAt 7] []) =
      stockPriceJob [barAt 5, barAt 7] [] ∧
    (stockPriceJob [barAt 5, barAt 7]
        (stockPriceJob [barAt 5, barAt 7] [])).length =
      (stockPriceJob [barAt 5, barAt 7] []).length) :=
  ⟨by decide, C2_price_job_idempotent [barAt 5, barAt 7] [] (by decide)⟩

theorem runPerTicker_cons_ok {α : Type} (fetch : String → FetchResult α)
    (ingest : α → List α → List α) (t : String) (ts : List String)
    (store : List α) (summary : JobRunSummary) (rs : List α)
    (hf : fetch t = FetchResult.ok rs) :
    runPerTicker fetch ingest (t :: ts) store summary =
      runPerTicker fetch ingest ts (rs.foldl (fun s r => ingest r s) store)
        { summary with
          succeeded := summary.succeeded + 1
          stored := summary.stored + rs.length } := by
  simp only [runPerTicker, List.foldl_cons, hf]

theorem runPerTicker_cons_err {α : Type} (fetch : String → FetchResult α)
    (ingest : α → List α → List α) (t : String) (ts : List String)
    (store : List α) (summary : JobRunSummary) (m : String)
    (hf : fetch t = FetchResult.err m) :
    runPerTicker fetch ingest (t :: ts) store summary =
      runPerTicker fetch ingest ts store
        { summary with failed := summary.failed + 1 } := by
  simp only [runPerTicker, List.foldl_cons, hf]

theorem runPerTicker_counts {α : Type} (fetch : String → FetchResult α)
    (ingest : α → List α → List α) :
    ∀ (tickers : List String) (store : List α) (summary : JobRunSummary),
      (runPerTicker fetch ingest tickers store summary).2.failed =
        summary.failed + tickers.countP (fun t => !(fetch t).isOk) ∧
      (runPerTicker fetch ingest tickers store summary).2.succeeded =
        summary.succeeded + tickers.countP (fun t => (fetch t).isOk) := by
  intro tickers
  induction tickers with
  | nil => intro store summary; simp [runPerTicker]
  | cons t ts ih =>
      intro store summary
      cases hf : fetch t with
      | ok rs =>
          rw [runPerTicker_cons_ok fetch ingest t ts store summary rs hf]
          have h2 := ih (rs.foldl (fun s r => ingest r s) store)
            { summary with
              succeeded := summary.succeeded + 1
              stored := summary.stored + rs.length }
          refine ⟨?_, ?_⟩
          · rw [h2.1]
            simp [List.countP_cons, hf, FetchResult.isOk]
          · rw [h2.2]
            simp [List.countP_cons, hf, FetchResult.isOk]
            omega
      | err m =>
          rw [runPerTicker_cons_err fetch ingest t ts store summary m hf]
          have h2 := ih store { summary with failed := summary.failed + 1 }
          refine ⟨?_, ?_⟩
          · rw [h2.1]
            simp [List.countP_cons, hf, FetchResult.isOk]
            omega
          · rw [h2.2]
            simp [List.countP_cons, hf, FetchResult.isOk]

theorem runPerTicker_mem_mono {α κ : Type} [DecidableEq κ] (key : α → κ)
    (merge : α → α → α) (hmerge : ∀ x y, key (merge x y) = key y)
    (fetch : String → FetchResult α) :
    ∀ (tickers : List String) (store : List α) (summary : JobRunSummary)
      (k : κ), k ∈ store.map key →
      k ∈ (runPerTicker fetch (fun a s => upsertBy key merge a s)
        tickers store summary).1.map key := by
  intro tickers
  induction tickers with
  | nil => intro store summary k h; simpa [runPerTicker] using h
  | cons t ts ih =>
      intro store summary k h
      cases hf : fetch t with
      | ok rs =>
          rw [runPerTicker_cons_ok _ _ t ts store summary rs hf]
          exact ih _ _ k (mem_key_upsertFold_of_mem key merge hmerge rs store k h)
      | err m =>
          rw [runPerTicker_cons_err _ _ t ts store summary m hf]
          exact ih _ _ k h

theorem runPerTicker_stored {α κ : Type} [DecidableEq κ] (key : α → κ)
    (merge : α → α → α) (hmerge : ∀ x y, key (merge x y) = key y)
    (fetch : String → FetchResult α) :
    ∀ (tickers : List String) (store : List α) (summary : JobRunSummary)
      (t : String) (rs : List α) (r : α),
      t ∈ tickers → fetch t = FetchResult.ok rs → r ∈ rs →
      key r ∈ (runPerTicker fetch (fun a s => upsertBy key merge a s)
        tickers store summary).1.map key := by
  intro tickers
  induction tickers with
  | nil => intro store summary t rs r ht; cases ht
  | cons c cs ih =>
      intro store summary t rs r ht hf hr
      rcases List.mem_cons.mp ht with ht | ht
      · subst ht
        rw [runPerTicker_cons_ok _ _ t cs store summary rs hf]
        exact runPerTicker_mem_mono key merge hmerge fetch cs _ _ (key r)
          (mem_key_upsertFold_self key merge hmerge rs store r hr)
      · cases hf2 : fetch c with
        | ok rs2 =>
            rw [runPerTicker_cons_ok _ _ c cs store summary rs2 hf2]
            exact ih _ _ t rs r ht hf hr
        | err m =>
            rw [runPerTicker_cons_err _ _ c cs store summary m hf2]
            exact ih _ _ t rs r ht hf hr

/-- C7: per-unit error capture and partial-failure isolation in one
scheduler tick.  Every per-ticker fetch error is recorded in the JobRun
summary counts of its own job (failed and succeeded tallies equal the
number of failed and successful ticker fetches), and for every ticker whose
fetch succeeded, every fetched record ends up stored, regardless of how the
fetches of any sibling tickers failed. -/
theorem C7_partial_failure_isolation
    (priceFetch : String → FetchResult PricePoint)
    (newsFetch : String → FetchResult NewsArticle)
    (tickers : List String) (st : PipelineState) :
    ((schedulerTick priceFetch newsFetch tickers st).2.1.failed =
        tickers.countP (fun t => !(priceFetch t).isOk) ∧
      (schedulerTick priceFetch newsFetch tickers st).2.1.succeeded =
        tickers.countP (fun t => (priceFetch t).isOk) ∧
      (schedulerTick priceFetch newsFetch tickers st).2.2.failed =
        tickers.countP (fun t => !(newsFetch t).isOk) ∧
      (schedulerTick priceFetch newsFetch tickers st).2.2.succeeded =
        tickers.countP (fun t => (newsFetch t).isOk)) ∧
    (∀ t ∈ tickers, ∀ bars, priceFetch t = FetchResult.ok bars →
      ∀ b ∈ bars, b.key ∈
        (schedulerTick priceFetch newsFetch tickers st).1.prices.map
          PricePoint.key) ∧
    (∀ t ∈ tickers, ∀ arts, newsFetch t = FetchResult.ok arts →
      ∀ a ∈ arts, dedupeKey a ∈
        (schedulerTick priceFetch newsFetch tickers st).1.news.map
          dedupeKey) := by
  refine ⟨⟨?_, ?_, ?_, ?_⟩, ?_, ?_⟩
  · have h := (runPerTicker_counts priceFetch upsertPrice tickers st.prices
      { succeeded := 0, failed := 0, stored := 0 }).1
    simpa [schedulerTick] using h
  · have h := (runPerTicker_counts priceFetch upsertPrice tickers st.prices
      { succeeded := 0, failed := 0, stored := 0 }).2
    simpa [schedulerTick] using h
  · have h := (runPerTicker_counts newsFetch upsertNews tickers st.news
      { succeeded := 0, failed := 0, stored := 0 }).1
    simpa [schedulerTick] using h
  · have h := (runPerTicker_counts newsFetch upsertNews tickers st.news
      { succeeded := 0, failed := 0, stored := 0 }).2
    simpa [schedulerTick] using h
  · intro t ht bars hf b hb
    exact runPerTicker_stored PricePoint.key (fun _ incoming => incoming)
      (fun _ _ => rfl) priceFetch tickers st.prices
      { succeeded := 0, failed := 0, stored := 0 } t bars b ht hf hb
  · intro t ht arts hf a ha
    exact runPerTicker_stored dedupeKey mergeArticle
      (fun _ _ => rfl) newsFetch tickers st.news
      { succeeded := 0, failed := 0, stored := 0 } t arts a ht hf ha

/-- Demo news fetch for the isolation witness: GOOGL fails entirely, every
other ticker succeeds with one article. -/
def demoNewsFetch : String → FetchResult NewsArticle :=
  fun t =>
    if t = "GOOGL" then FetchResult.err "news fetch failed"
    else FetchResult.ok [mkArticle t "2024-01-05" "m1" 1]

/-- Demo price fetch for the isolation witness: every ticker succeeds with
one bar. -/
def demoPriceFetch : String → FetchResult PricePoint :=
  fun t => FetchResult.ok
    [{ ticker := t, timestamp := 5, openPrice := 1, high := 1, low := 1,
       close := 1, volume := 1 }]

theorem C7_partial_failure_isolation_witness :
    ("MSFT" ∈ ["GOOGL", "MSFT"] ∧
      demoNewsFetch "MSFT" =
        FetchResult.ok [mkArticle "MSFT" "2024-01-05" "m1" 1] ∧
      mkArticle "MSFT" "2024-01-05" "m1" 1 ∈
        [mkArticle "MSFT" "2024-01-05" "m1" 1]) ∧
    dedupeKey (mkArticle "MSFT" "2024-01-05" "m1" 1) ∈
      (schedulerTick demoPriceFetch demoNewsFetch ["GOOGL", "MSFT"]
        initialState).1.news.map dedupeKey :=
  ⟨⟨by decide, rfl, by decide⟩,
    (C7_partial_failure_isolation demoPriceFetch demoNewsFetch
        ["GOOGL", "MSFT"] initialState).2.2 "MSFT" (by decide)
      [mkArticle "MSFT" "2024-01-05" "m1" 1] rfl
      (mkArticle "MSFT" "2024-01-05" "m1" 1) (by decide)⟩

theorem sched_invariant {s : SchedulerState} (h : Reachable s) :
    (∀ r ∈ s.active, s.phase r.job = JobPhase.running) ∧
    (s.active.map RunInfo.job).Nodup := by
  induction h with
  | init => simp [initScheduler]
  | @step s t hs hstep ih =>
      cases hstep with
      | start j hj =>
          constructor
          · intro r hr
            rcases List.mem_cons.mp hr with hr | hr
            · subst hr; simp [setPhase]
            · by_cases hrj : r.job = j
              · simp [setPhase, hrj]
              · simp only [setPhase]
                rw [if_neg hrj]
                exact ih.1 r hr
          · have hj2 : ∀ r ∈ s.active, ¬ r.job = j := by
              intro r hr hrj
              have h2 := ih.1 r hr
              rw [hrj, hj] at h2
              cases h2
            simp only [List.map_cons, List.nodup_cons]
            constructor
            · intro hmem
              rcases List.mem_map.mp hmem with ⟨r, hr, hrj⟩
              exact hj2 r hr hrj
            · exact ih.2
      | finish j ok hj =>
          constructor
          · intro r hr
            have hmem := List.mem_filter.mp hr
            have hrj : ¬ r.job = j := by simpa using hmem.2
            simp only [setPhase]
            rw [if_neg hrj]
            exact ih.1 r hmem.1
          · exact List.Nodup.sublist
              (List.Sublist.map RunInfo.job (List.filter_sublist s.active)) ih.2
      | reset j hj =>
          constructor
          · intro r hr
            have h2 := ih.1 r hr
            by_cases hrj : r.job = j
            · rw [hrj] at h2
              rcases hj with hj | hj <;> (rw [hj] at h2; cases h2)
            · simp only [setPhase]
              rw [if_neg hrj]
              exact h2
          · exact ih.2

/-- C6: at most one run of any given job type is ever active.  In every
reachable scheduler state the active runs carry pairwise distinct job
types; every transition moves a job's phase only along the edges of the
Idle to Running to Succeeded-or-Failed to Idle state machine; and runs of
different job types can genuinely overlap, witnessed by a reachable state
with both the stock-price job and the Yahoo news job running. -/
theorem C6_scheduler_mutual_exclusion :
    (∀ s : SchedulerState, Reachable s →
      (s.active.map RunInfo.job).Nodup ∧
      ∀ r1 ∈ s.active, ∀ r2 ∈ s.active, r1.job = r2.job → r1 = r2) ∧
    (∀ s t : SchedulerState, SchedStep s t → ∀ j : JobType,
      s.phase j = t.phase j ∨
      (s.phase j = JobPhase.idle ∧ t.phase j = JobPhase.running) ∨
      (s.phase j = JobPhase.running ∧
        (t.phase j = JobPhase.succeeded ∨ t.phase j = JobPhase.failed)) ∨
      ((s.phase j = JobPhase.succeeded ∨ s.phase j = JobPhase.failed) ∧
        t.phase j = JobPhase.idle)) ∧
    (∃ s : SchedulerState, Reachable s ∧
      s.phase JobType.stockPrice = JobPhase.running ∧
      s.phase JobType.yahooNews = JobPhase.running ∧
      2 ≤ s.active.length) := by
  refine ⟨?_, ?_, ?_⟩
  · intro s hs
    refine ⟨(sched_invariant hs).2, ?_⟩
    intro r1 h1 r2 h2 hjob
    exact List.inj_on_of_nodup_map (sched_invariant hs).2 h1 h2 hjob
  · intro s0 t0 hstep j
    cases hstep with
    | start k hk =>
        by_cases hjk : j = k
        · subst hjk
          right; left
          exact ⟨hk, by simp [setPhase]⟩
        · left
          simp only [setPhase]
          rw [if_neg hjk]
    | finish k ok hk =>
        by_cases hjk : j = k
        · subst hjk
          right; right; left
          refine ⟨hk, ?_⟩
          cases ok <;> simp [setPhase]
        · left
          simp only [setPhase]
          rw [if_neg hjk]
    | reset k hk =>
        by_cases hjk : j = k
        · subst hjk
          right; right; right
          exact ⟨hk, by simp [setPhase]⟩
        · left
          simp only [setPhase]
          rw [if_neg hjk]
  · refine ⟨_, Reachable.step
      (Reachable.step Reachable.init
        (SchedStep.start initScheduler JobType.stockPrice rfl))
      (SchedStep.start _ JobType.yahooNews rfl), rfl, rfl, by decide⟩

theorem C6_scheduler_mutual_exclusion_witness :
    Reachable initScheduler ∧
    ((initScheduler.active.map RunInfo.job).Nodup ∧
      ∀ r1 ∈ initScheduler.active, ∀ r2 ∈ initScheduler.active,
        r1.job = r2.job → r1 = r2) :=
  ⟨Reachable.init,
    C6_scheduler_mutual_exclusion.1 initScheduler Reachable.init⟩

theorem nested_foldl_eq_flat :
    ∀ (data : List ChartRow) (series : List SeriesConfig) (acc : MinMaxAcc),
      data.foldl
        (fun acc item =>
          series.foldl (fun a s => updateAcc a (item.lookup s.dataKey)) acc)
        acc =
      (data.flatMap
        (fun item => series.map (fun s => item.lookup s.dataKey))).foldl
        updateAcc acc := by
  intro data series
  induction data with
  | nil => intro acc; rfl
  | cons item rest ih =>
      intro acc
      have hinner : ∀ acc2 : MinMaxAcc,
          series.foldl (fun a s => updateAcc a (item.lookup s.dataKey)) acc2 =
            (series.map (fun s => item.lookup s.dataKey)).foldl updateAcc
              acc2 := by
        intro acc2
        rw [List.foldl_map]
      rw [List.foldl_cons, List.flatMap_cons, List.foldl_append, ih, hinner]

theorem cells_eq_filterMap (data : List ChartRow) (series : List SeriesConfig) :
    numericCells data series =
      (data.flatMap
        (fun item => series.map (fun s => item.lookup s.dataKey))).filterMap
        (fun v =>
          match v with
          | some (CellValue.num q) => some q
          | _ => none) := by
  induction data with
  | nil => rfl
  | cons item rest ih =>
      simp only [numericCells, List.flatMap_cons, List.filterMap_append] at ih ⊢
      rw [List.filterMap_map]
      exact congrArg _ ih

theorem foldl_updateAcc_min :
    ∀ (vs : List (Option CellValue)) (acc : MinMaxAcc),
      (vs.foldl updateAcc acc).min? =
        (vs.filterMap (fun v =>
          match v with
          | some (CellValue.num q) => some q
          | _ => none)).foldl
          (fun o q => some (match o with | none => q | some m => min m q))
          acc.min? := by
  intro vs
  induction vs with
  | nil => intro acc; rfl
  | cons v rest ih =>
      intro acc
      cases v with
      | none => simpa [List.filterMap_cons, updateAcc] using ih acc
      | some c =>
          cases c with
          | num q =>
              rw [List.foldl_cons, ih]
              simp [List.filterMap_cons, updateAcc]
          | other => simpa [List.filterMap_cons, updateAcc] using ih acc

theorem foldl_updateAcc_max :
    ∀ (vs : List (Option CellValue)) (acc : MinMaxAcc),
      (vs.foldl updateAcc acc).max? =
        (vs.filterMap (fun v =>
          match v with
          | some (CellValue.num q) => some q
          | _ => none)).foldl
          (fun o q => some (match o with | none => q | some m => max m q))
          acc.max? := by
  intro vs
  induction vs with
  | nil => intro acc; rfl
  | cons v rest ih =>
      intro acc
      cases v with
      | none => simpa [List.filterMap_cons, updateAcc] using ih acc
      | some c =>
          cases c with
          | num q =>
              rw [List.foldl_cons, ih]
              simp [List.filterMap_cons, updateAcc]
          | other => simpa [List.filterMap_cons, updateAcc] using ih acc

theorem scanRows_min (data : List ChartRow) (series : List SeriesConfig) :
    (scanRows data series).min? = listMin (numericCells data series) := by
  show ((data.foldl
    (fun acc item =>
      series.foldl (fun a s => updateAcc a (item.lookup s.dataKey)) acc)
    { min? := none, max? := none }).min?) = _
  rw [nested_foldl_eq_flat, foldl_updateAcc_min, cells_eq_filterMap]
  rfl

theorem scanRows_max (data : List ChartRow) (series : List SeriesConfig) :
    (scanRows data series).max? = listMax (numericCells data series) := by
  show ((data.foldl
    (fun acc item =>
      series.foldl (fun a s => updateAcc a (item.lookup s.dataKey)) acc)
    { min? := none, max? := none }).max?) = _
  rw [nested_foldl_eq_flat, foldl_updateAcc_max, cells_eq_filterMap]
  rfl

theorem foldl_minStep_some :
    ∀ (l : List ℚ) (m : ℚ),
      l.foldl (fun o q => some (match o with | none => q | some m2 => min m2 q))
        (some m) = some (l.foldl min m) := by
  intro l
  induction l with
  | nil => intro m; rfl
  | cons q rest ih => intro m; simpa using ih (min m q)

theorem foldl_maxStep_some :
    ∀ (l : List ℚ) (m : ℚ),
      l.foldl (fun o q => some (match o with | none => q | some m2 => max m2 q))
        (some m) = some (l.foldl max m) := by
  intro l
  induction l with
  | nil => intro m; rfl
  | cons q rest ih => intro m; simpa using ih (max m q)

theorem listMin_cons (q : ℚ) (l : List ℚ) :
    listMin (q :: l) = some (l.foldl min q) :=
  foldl_minStep_some l q

theorem listMax_cons (q : ℚ) (l : List ℚ) :
    listMax (q :: l) = some (l.foldl max q) :=
  foldl_maxStep_some l q

theorem foldl_min_le_init : ∀ (l : List ℚ) (m : ℚ), l.foldl min m ≤ m := by
  intro l
  induction l with
  | nil => intro m; exact le_rfl
  | cons q rest ih =>
      intro m
      exact le_trans (by simpa using ih (min m q)) (min_le_left m q)

theorem foldl_max_init_le : ∀ (l : List ℚ) (m : ℚ), m ≤ l.foldl max m := by
  intro l
  induction l with
  | nil => intro m; exact le_rfl
  | cons q rest ih =>
      intro m
      exact le_trans (le_max_left m q) (by simpa using ih (max m q))

theorem foldl_min_le_mem :
    ∀ (l : List ℚ) (m x : ℚ), x ∈ l → l.foldl min m ≤ x := by
  intro l
  induction l with
  | nil => intro m x hx; cases hx
  | cons q rest ih =>
      intro m x hx
      rcases List.mem_cons.mp hx with hx | hx
      · subst hx
        exact le_trans (by simpa using foldl_min_le_init rest (min m x))
          (min_le_right m x)
      · simpa using ih (min m q) x hx

theorem foldl_max_mem_le :
    ∀ (l : List ℚ) (m x : ℚ), x ∈ l → x ≤ l.foldl max m := by
  intro l
  induction l with
  | nil => intro m x hx; cases hx
  | cons q rest ih =>
      intro m x hx
      rcases List.mem_cons.mp hx with hx | hx
      · subst hx
        exact le_trans (le_max_right m x)
          (by simpa using foldl_max_init_le rest (max m x))
      · simpa using ih (max m q) x hx

theorem listMin_le (l : List ℚ) (m : ℚ) (h : listMin l = some m) :
    ∀ x ∈ l, m ≤ x := by
  cases l with
  | nil => cases h
  | cons q rest =>
      rw [listMin_cons] at h
      intro x hx
      rcases List.mem_cons.mp hx with hx | hx
      · subst hx
        rw [← Option.some.inj h]
        exact foldl_min_le_init rest x
      · rw [← Option.some.inj h]
        exact foldl_min_le_mem rest q x hx

theorem le_listMax (l : List ℚ) (m : ℚ) (h : listMax l = some m) :
    ∀ x ∈ l, x ≤ m := by
  cases l with
  | nil => cases h
  | cons q rest =>
      rw [listMax_cons] at h
      intro x hx
      rcases List.mem_cons.mp hx with hx | hx
      · subst hx
        rw [← Option.some.inj h]
        exact foldl_max_init_le rest x
      · rw [← Option.some.inj h]
        exact foldl_max_mem_le rest q x hx

theorem listMin_isSome (l : List ℚ) (h : l ≠ []) : ∃ m, listMin l = some m := by
  cases l with
  | nil => exact absurd rfl h
  | cons q rest => exact ⟨rest.foldl min q, listMin_cons q rest⟩

theorem listMax_isSome (l : List ℚ) (h : l ≠ []) : ∃ m, listMax l = some m := by
  cases l with
  | nil => exact absurd rfl h
  | cons q rest => exact ⟨rest.foldl max q, listMax_cons q rest⟩

theorem cells_nil_of_series_nil (data : List ChartRow) :
    numericCells data [] = [] := by
  induction data with
  | nil => rfl
  | cons item rest ih => simpa [numericCells, List.flatMap_cons] using ih

/-- C9: calculateYAxisDomain returns the pair (0, 100) when the data array
is empty, the series list is empty, or no listed series key holds a numeric
value in any row; otherwise it returns the floor of min minus range times
padding paired with the ceiling of max plus range times padding, where min
and max range over all numeric values found under the listed series keys —
and for every non-negative padding the returned interval contains every
such numeric value. -/
theorem C9_calculateYAxisDomain_correct (data : List ChartRow)
    (series : List SeriesConfig) (pad : ℚ) (hpad : 0 ≤ pad) :
    (data = [] ∨ series = [] →
      calculateYAxisDomain data series pad = (0, 100)) ∧
    (numericCells data series = [] →
      calculateYAxisDomain data series pad = (0, 100)) ∧
    (∀ mn mx, listMin (numericCells data series) = some mn →
      listMax (numericCells data series) = some mx →
      calculateYAxisDomain data series pad =
        (((⌊mn - (mx - mn) * pad⌋ : ℤ) : ℚ),
          ((⌈mx + (mx - mn) * pad⌉ : ℤ) : ℚ))) ∧
    (∀ v ∈ numericCells data series,
      (calculateYAxisDomain data series pad).1 ≤ v ∧
      v ≤ (calculateYAxisDomain data series pad).2) := by
  have hformula : ∀ mn mx, listMin (numericCells data series) = some mn →
      listMax (numericCells data series) = some mx →
      calculateYAxisDomain data series pad =
        (((⌊mn - (mx - mn) * pad⌋ : ℤ) : ℚ),
          ((⌈mx + (mx - mn) * pad⌉ : ℤ) : ℚ)) := by
    intro mn mx hmn hmx
    have hne : numericCells data series ≠ [] := by
      intro h0
      rw [h0] at hmn
      cases hmn
    have hd : data ≠ [] := by
      intro h0
      subst h0
      exact hne rfl
    have hs : series ≠ [] := by
      intro h0
      subst h0
      exact hne (cells_nil_of_series_nil data)
    have hde : (data.isEmpty || series.isEmpty) = false := by
      simp [hd, hs]
    simp [calculateYAxisDomain, hde, scanRows_min, scanRows_max, hmn, hmx]
  refine ⟨?_, ?_, hformula, ?_⟩
  · intro h
    rcases h with h | h <;> simp [calculateYAxisDomain, h]
  · intro hcells
    by_cases hde : (data.isEmpty || series.isEmpty) = true
    · simp [calculateYAxisDomain, hde]
    · have hmin : (scanRows data series).min? = none := by
        rw [scanRows_min, hcells]
        rfl
      simp [calculateYAxisDomain, hde, hmin]
  · intro v hv
    have hne : numericCells data series ≠ [] := List.ne_nil_of_mem hv
    obtain ⟨mn, hmn⟩ := listMin_isSome _ hne
    obtain ⟨mx, hmx⟩ := listMax_isSome _ hne
    have hres := hformula mn mx hmn hmx
    have hmnv : mn ≤ v := listMin_le _ _ hmn v hv
    have hvmx : v ≤ mx := le_listMax _ _ hmx v hv
    have hrange : 0 ≤ (mx - mn) * pad := mul_nonneg (by linarith) hpad
    rw [hres]
    constructor
    · exact le_trans (Int.floor_le _) (by linarith)
    · exact le_trans (by linarith) (Int.le_ceil (mx + (mx - mn) * pad))

theorem C9_calculateYAxisDomain_correct_witness :
    (0 : ℚ) ≤ 0 ∧
    (([] : List ChartRow) = [] ∨ ([⟨"a", "red", none⟩] : List SeriesConfig) = [] →
      calculateYAxisDomain [] [⟨"a", "red", none⟩] 0 = (0, 100)) ∧
    (numericCells [] [⟨"a", "red", none⟩] = [] →
      calculateYAxisDomain [] [⟨"a", "red", none⟩] 0 = (0, 100)) ∧
    (∀ mn mx, listMin (numericCells [] [⟨"a", "red", none⟩]) = some mn →
      listMax (numericCells [] [⟨"a", "red", none⟩]) = some mx →
      calculateYAxisDomain [] [⟨"a", "red", none⟩] 0 =
        (((⌊mn - (mx - mn) * 0⌋ : ℤ) : ℚ),
          ((⌈mx + (mx - mn) * 0⌉ : ℤ) : ℚ))) ∧
    (∀ v ∈ numericCells [] [⟨"a", "red", none⟩],
      (calculateYAxisDomain [] [⟨"a", "red", none⟩] 0).1 ≤ v ∧
      v ≤ (calculateYAxisDomain [] [⟨"a", "red", none⟩] 0).2) :=
  ⟨by decide, C9_calculateYAxisDomain_correct [] [⟨"a", "red", none⟩] 0 (by decide)⟩

theorem mem_of_getLast?_eq {α : Type} (l : List α) (g : α)
    (h : l.getLast? = some g) : g ∈ l := by
  have h2 : g ∈ l.getLast? := h
  rcases List.mem_getLast?_eq_getLast h2 with ⟨hne, hg⟩
  rw [hg]
  exact List.getLast_mem hne

theorem sorted_le_getLast (getTime : String → ℤ) :
    ∀ (l : List StockPrice), l.Sorted (priceLE getTime) →
      ∀ g, l.getLast? = some g → ∀ x ∈ l, priceLE getTime x g := by
  intro l
  induction l with
  | nil => intro _ g hg; cases hg
  | cons a l2 ih =>
      intro hsorted g hg x hx
      cases l2 with
      | nil =>
          have hag : a = g := by simpa using hg
          have hxa : x = a := by simpa using hx
          subst hag
          subst hxa
          exact le_rfl
      | cons b l3 =>
          have hg2 : (b :: l3).getLast? = some g := by
            rw [← List.getLast?_cons_cons (a := a)]
            exact hg
          rcases List.mem_cons.mp hx with hx | hx
          · subst hx
            have hgmem : g ∈ b :: l3 := mem_of_getLast?_eq _ g hg2
            exact (List.sorted_cons.mp hsorted).1 g hgmem
          · exact ih (List.sorted_cons.mp hsorted).2 g hg2 x hx

/-- C10: when a StockPricesPage fetch yields at least one record, the list
placed in component state is a permutation of the response records sorted
in non-decreasing order of the timestamp formed from the date and time
fields, the start-date input is set to the date of the chronologically
first record of the sorted list and the end-date input to the date of its
chronologically last record, those two records carrying the minimal and
maximal timestamps of the whole response. -/
theorem C10_fetchData_sorted (getTime : String → ℤ) (st : PriceFetchState)
    (rs : List StockPrice) (hne : rs ≠ []) :
    ∃ (l : List StockPrice) (f g : StockPrice),
      (fetchData getTime st (some rs)).data = some l ∧
      l.Perm rs ∧
      l.Sorted (priceLE getTime) ∧
      l.head? = some f ∧
      l.getLast? = some g ∧
      (fetchData getTime st (some rs)).startDate = f.date ∧
      (fetchData getTime st (some rs)).endDate = g.date ∧
      (∀ r ∈ rs, sortKey getTime f ≤ sortKey getTime r ∧
        sortKey getTime r ≤ sortKey getTime g) := by
  haveI htot : IsTotal StockPrice (priceLE getTime) :=
    ⟨fun a b => le_total (sortKey getTime a) (sortKey getTime b)⟩
  haveI htrans : IsTrans StockPrice (priceLE getTime) :=
    ⟨fun a b c hab hbc => le_trans hab hbc⟩
  have hlen : rs.length > 0 := List.length_pos.mpr hne
  have hfetch : fetchData getTime st (some rs) =
      { st with
        data := some (List.insertionSort (priceLE getTime) rs)
        startDate := (((List.insertionSort (priceLE getTime) rs).head?).map
          StockPrice.date).getD st.startDate
        endDate := (((List.insertionSort (priceLE getTime) rs).getLast?).map
          StockPrice.date).getD st.endDate } := by
    simp only [fetchData, hlen, if_pos]
  have hperm : (List.insertionSort (priceLE getTime) rs).Perm rs :=
    List.perm_insertionSort (priceLE getTime) rs
  have hsorted : (List.insertionSort (priceLE getTime) rs).Sorted
      (priceLE getTime) :=
    List.sorted_insertionSort (priceLE getTime) rs
  have hlne : List.insertionSort (priceLE getTime) rs ≠ [] := by
    intro h0
    rw [← List.length_pos] at hne
    have := hperm.length_eq
    rw [h0] at this
    simp at this
    rw [← this] at hne
    exact lt_irrefl 0 hne
  obtain ⟨f, l2, hfl⟩ : ∃ f l2, List.insertionSort (priceLE getTime) rs =
      f :: l2 := by
    cases hcase : List.insertionSort (priceLE getTime) rs with
    | nil => exact absurd hcase hlne
    | cons f l2 => exact ⟨f, l2, rfl⟩
  have hhead : (List.insertionSort (priceLE getTime) rs).head? = some f := by
    rw [hfl]
    rfl
  obtain ⟨g, hg⟩ : ∃ g, (List.insertionSort (priceLE getTime) rs).getLast? =
      some g := by
    rw [hfl]
    exact ⟨(f :: l2).getLast (List.cons_ne_nil f l2),
      List.getLast?_eq_getLast_of_ne_nil (List.cons_ne_nil f l2)⟩
  refine ⟨List.insertionSort (priceLE getTime) rs, f, g, ?_, hperm, hsorted,
    hhead, hg, ?_, ?_, ?_⟩
  · rw [hfetch]
  · rw [hfetch]
    simp only [hhead]
    rfl
  · rw [hfetch]
    simp only [hg]
    rfl
  · intro r hr
    have hrl : r ∈ List.insertionSort (priceLE getTime) rs :=
      (hperm.mem_iff).mpr hr
    constructor
    · rcases List.mem_cons.mp (hfl ▸ hrl) with hx | hx
      · rw [hx]
      · have hs2 := List.sorted_cons.mp (hfl ▸ hsorted)
        exact hs2.1 r hx
    · exact sorted_le_getLast getTime _ hsorted g hg r hrl

/-- Constant-time sort key for the fetchData witness. -/
def zeroTime : String → ℤ := fun _ => 0

/-- Concrete record for the fetchData witness. -/
def demoPrice : StockPrice :=
  { Ticker := "AAPL", Open := 1, High := 2, Low := 1, Close := 2, Volume := 3,
    date := "2024-01-05", time := "15:30:00" }

theorem C10_fetchData_sorted_witness :
    ([demoPrice] : List StockPrice) ≠ [] ∧
    (∃ (l : List StockPrice) (f g : StockPrice),
      (fetchData zeroTime ⟨none, "", "", none⟩ (some [demoPrice])).data =
        some l ∧
      l.Perm [demoPrice] ∧
      l.Sorted (priceLE zeroTime) ∧
      l.head? = some f ∧
      l.getLast? = some g ∧
      (fetchData zeroTime ⟨none, "", "", none⟩ (some [demoPrice])).startDate =
        f.date ∧
      (fetchData zeroTime ⟨none, "", "", none⟩ (some [demoPrice])).endDate =
        g.date ∧
      (∀ r ∈ [demoPrice], sortKey zeroTime f ≤ sortKey zeroTime r ∧
        sortKey zeroTime r ≤ sortKey zeroTime g)) :=
  ⟨by decide,
    C10_fetchData_sorted zeroTime ⟨none, "", "", none⟩ [demoPrice] (by decide)⟩

theorem scoreStats_fold :
    ∀ (l : List ℚ) (a b : ℚ),
      l.foldl (fun acc x => (acc.1 + x, acc.2 + x * x)) (a, b) =
        (a + l.sum, b + (l.map (fun x => x * x)).sum) := by
  intro l
  induction l with
  | nil => intro a b; simp
  | cons x rest ih =>
      intro a b
      simp only [List.foldl_cons, List.map_cons, List.sum_cons]
      rw [ih, Prod.mk.injEq]
      constructor <;> ring

theorem scoreStats_eq (l : List ℚ) :
    scoreStats l = (l.sum, (l.map (fun x => x * x)).sum) := by
  have h := scoreStats_fold l 0 0
  simpa [scoreStats] using h

theorem sum_sq_dev :
    ∀ (l : List ℚ) (c : ℚ),
      (l.map (fun x => (x - c) ^ 2)).sum =
        (l.map (fun x => x * x)).sum - 2 * c * l.sum +
          (l.length : ℚ) * c ^ 2 := by
  intro l
  induction l with
  | nil => intro c; simp
  | cons x rest ih =>
      intro c
      simp only [List.map_cons, List.sum_cons, List.length_cons, ih]
      push_cast
      ring

theorem sample_var_eq (l : List ℚ) (h : l ≠ []) :
    ((l.map (fun x => x * x)).sum -
        (l.length : ℚ) * (l.sum / (l.length : ℚ)) * (l.sum / (l.length : ℚ))) /
        ((l.length : ℚ) - 1) =
      sampleVar l := by
  have hn : (l.length : ℚ) ≠ 0 :=
    Nat.cast_ne_zero.mpr (fun h0 => h (List.length_eq_zero.mp h0))
  unfold sampleVar sampleMean
  rw [sum_sq_dev]
  congr 1
  field_simp
  ring

theorem sampleVar_nonneg (l : List ℚ) (h : l ≠ []) : 0 ≤ sampleVar l := by
  unfold sampleVar
  apply div_nonneg
  · apply List.sum_nonneg
    intro x hx
    rcases List.mem_map.mp hx with ⟨y, hy, rfl⟩
    exact sq_nonneg _
  · have h1 : 1 ≤ l.length := List.length_pos.mpr h
    have h2 : (1 : ℚ) ≤ (l.length : ℚ) := by exact_mod_cast h1
    linarith

/-- C1: AggregatesJob produces, for every ticker and calendar date with at
least one scored article, an AggregateRecord whose attention is the number
of stored articles for that ticker-day, whose bull_bear_ratio is the count
of day scores above the positive threshold (one tenth) divided by the count
below the negative threshold (minus one tenth) with the denominator floored
at one, whose sent_mean is the mean of the day scores, and whose sample
standard deviation squares to the sample variance of the day scores; in
particular the fixed ten-article AAPL store with five positive and two
negative scores yields attention ten and ratio five halves. -/
theorem C1_aggregates_job_correct (store : List NewsArticle) (t d : String)
    (h : dayScores store t d ≠ []) :
    (aggregatesJob store t d).attention = (articlesFor store t d).length ∧
    (aggregatesJob store t d).bull_bear_ratio =
      ((((dayScores store t d).filter
          (fun x => decide (posThreshold < x))).length : ℚ) /
        ((max (((dayScores store t d).filter
          (fun x => decide (x < negThreshold))).length) 1 : ℕ) : ℚ)) ∧
    (aggregatesJob store t d).sent_mean = sampleMean (dayScores store t d) ∧
    (aggregatesJob store t d).sent_var = sampleVar (dayScores store t d) ∧
    sentStd (aggregatesJob store t d) ^ 2 =
      ((sampleVar (dayScores store t d) : ℚ) : ℝ) ∧
    (0 : ℝ) ≤ sentStd (aggregatesJob store t d) ∧
    ((aggregatesJob aaplStore "AAPL" "2024-01-05").attention = 10 ∧
      (aggregatesJob aaplStore "AAPL" "2024-01-05").bull_bear_ratio = 5 / 2) := by
  have hvar : (aggregatesJob store t d).sent_var =
      sampleVar (dayScores store t d) := by
    show ((scoreStats (dayScores store t d)).2 -
        ((dayScores store t d).length : ℚ) *
          ((scoreStats (dayScores store t d)).1 /
            ((dayScores store t d).length : ℚ)) *
          ((scoreStats (dayScores store t d)).1 /
            ((dayScores store t d).length : ℚ))) /
        (((dayScores store t d).length : ℚ) - 1) =
      sampleVar (dayScores store t d)
    rw [scoreStats_eq]
    exact sample_var_eq (dayScores store t d) h
  have hmean : (aggregatesJob store t d).sent_mean =
      sampleMean (dayScores store t d) := by
    show (scoreStats (dayScores store t d)).1 /
        ((dayScores store t d).length : ℚ) =
      sampleMean (dayScores store t d)
    rw [scoreStats_eq]
    rfl
  have hratio : (aggregatesJob store t d).bull_bear_ratio =
      ((((dayScores store t d).filter
          (fun x => decide (posThreshold < x))).length : ℚ) /
        ((max (((dayScores store t d).filter
          (fun x => decide (x < negThreshold))).length) 1 : ℕ) : ℚ)) := by
    show (((dayScores store t d).countP
        (fun x => decide (posThreshold < x)) : ℕ) : ℚ) /
        ((max ((dayScores store t d).countP
          (fun x => decide (x < negThreshold))) 1 : ℕ) : ℚ) =
      ((((dayScores store t d).filter
          (fun x => decide (posThreshold < x))).length : ℚ) /
        ((max (((dayScores store t d).filter
          (fun x => decide (x < negThreshold))).length) 1 : ℕ) : ℚ))
    rw [List.countP_eq_length_filter, List.countP_eq_length_filter]
  have hstd : sentStd (aggregatesJob store t d) ^ 2 =
      ((sampleVar (dayScores store t d) : ℚ) : ℝ) := by
    unfold sentStd
    rw [hvar]
    exact Real.sq_sqrt (by exact_mod_cast sampleVar_nonneg _ h)
  refine ⟨rfl, hratio, hmean, hvar, hstd, ?_, ?_, ?_⟩
  · unfold sentStd
    exact Real.sqrt_nonneg _
  · decide
  · have h5 : (dayScores aaplStore "AAPL" "2024-01-05").countP
        (fun x => decide (posThreshold < x)) = 5 := by decide
    have h2 : (dayScores aaplStore "AAPL" "2024-01-05").countP
        (fun x => decide (x < negThreshold)) = 2 := by decide
    show (((dayScores aaplStore "AAPL" "2024-01-05").countP
        (fun x => decide (posThreshold < x)) : ℕ) : ℚ) /
        ((max ((dayScores aaplStore "AAPL" "2024-01-05").countP
          (fun x => decide (x < negThreshold))) 1 : ℕ) : ℚ) = 5 / 2
    rw [h5, h2]
    norm_num

theorem C1_aggregates_job_correct_witness :
    dayScores aaplStore "AAPL" "2024-01-05" ≠ [] ∧
    ((aggregatesJob aaplStore "AAPL" "2024-01-05").attention =
        (articlesFor aaplStore "AAPL" "2024-01-05").length ∧
      (aggregatesJob aaplStore "AAPL" "2024-01-05").bull_bear_ratio =
        ((((dayScores aaplStore "AAPL" "2024-01-05").filter
            (fun x => decide (posThreshold < x))).length : ℚ) /
          ((max (((dayScores aaplStore "AAPL" "2024-01-05").filter
            (fun x => decide (x < negThreshold))).length) 1 : ℕ) : ℚ)) ∧
      (aggregatesJob aaplStore "AAPL" "2024-01-05").sent_mean =
        sampleMean (dayScores aaplStore "AAPL" "2024-01-05") ∧
      (aggregatesJob aaplStore "AAPL" "2024-01-05").sent_var =
        sampleVar (dayScores aaplStore "AAPL" "2024-01-05") ∧
      sentStd (aggregatesJob aaplStore "AAPL" "2024-01-05") ^ 2 =
        ((sampleVar (dayScores aaplStore "AAPL" "2024-01-05") : ℚ) : ℝ) ∧
      (0 : ℝ) ≤ sentStd (aggregatesJob aaplStore "AAPL" "2024-01-05") ∧
      ((aggregatesJob aaplStore "AAPL" "2024-01-05").attention = 10 ∧
        (aggregatesJob aaplStore "AAPL" "2024-01-05").bull_bear_ratio =
          5 / 2)) :=
  ⟨by decide,
    C1_aggregates_job_correct aaplStore "AAPL" "2024-01-05" (by decide)⟩
